import Mathlib

/-!
Shallow embedding of the "plain" concept-indexing extension
(FileScanner / ConceptExtractor / PreprocessingService in preprocessor.ts,
PlainRenameProvider in rename_provider.ts).

Strings are modelled as lists of characters (`List Char`); JavaScript's
`split('\n')`, `trim`, `toLowerCase`, `indexOf` and the two regex scans are
reimplemented character by character, following the source exactly.
-/

namespace Plain

/-- The concept-name alphabet of the source regexes `[+\-\.0-9A-Z_a-z]`. -/
def alphaChar (c : Char) : Bool :=
  c.isAlpha || c.isDigit || c = '_' || c = '.' || c = '+' || c = '-'

/-- JavaScript `content.split('\n')`: split a character list at every newline;
the separators are dropped and empty segments are kept. -/
def splitOnNewline : List Char → List (List Char)
  | [] => [[]]
  | c :: rest =>
    let r := splitOnNewline rest
    if c = '\n' then [] :: r
    else
      match r with
      | l :: ls => (c :: l) :: ls
      | [] => [[c]]

/-- JavaScript `String.prototype.trim` (ASCII whitespace model). -/
def trimChars (cs : List Char) : List Char :=
  ((cs.dropWhile Char.isWhitespace).reverse.dropWhile Char.isWhitespace).reverse

/-- JavaScript `String.prototype.toLowerCase` (ASCII model). -/
def toLowerChars (cs : List Char) : List Char :=
  cs.map Char.toLower

/-- The header test `trimmedLine.match(/^\*\*\*[^*]+\*\*\*$/)`: three stars, a
nonempty star-free inner text, three stars. -/
def isHeaderLine (trimmed : List Char) : Bool :=
  match trimmed with
  | '*' :: '*' :: '*' :: rest =>
    let inner := rest.takeWhile (fun c => c ≠ '*')
    (!inner.isEmpty) && (rest.drop inner.length == ['*', '*', '*'])
  | _ => false

/-- `trimmedLine.replace(/\*/g, '').toLowerCase().trim()` — the section name of
a header line. -/
def sectionNameOf (trimmed : List Char) : String :=
  String.mk (trimChars (toLowerChars (trimmed.filter (fun c => c ≠ '*'))))

/-- The indentation test `/^\s+/.test(line)`: the line starts with whitespace. -/
def hasIndentation : List Char → Bool
  | [] => false
  | c :: _ => c.isWhitespace

/-- Global scan of `/:[+\-\.0-9A-Z_a-z]+:/g` with `exec`: returns every match
as (concept name without colons, match index), left to right, resuming after
each match's closing colon.  The second/third arguments are the automaton
state: current index, and `some (start, innerRev)` while a candidate token
that opened at `start` is being read (inner characters accumulated reversed). -/
def scanConceptTokens : List Char → Nat → Option (Nat × List Char) → List (String × Nat)
  | [], _, _ => []
  | c :: rest, i, none =>
    if c = ':' then scanConceptTokens rest (i + 1) (some (i, []))
    else scanConceptTokens rest (i + 1) none
  | c :: rest, i, some (start, innerRev) =>
    if c = ':' then
      if innerRev.isEmpty then scanConceptTokens rest (i + 1) (some (i, []))
      else (String.mk innerRev.reverse, start) :: scanConceptTokens rest (i + 1) none
    else if alphaChar c then scanConceptTokens rest (i + 1) (some (start, c :: innerRev))
    else scanConceptTokens rest (i + 1) none

/-- The `pushedConcepts` de-duplication of the usage scan: keep only the first
match of each concept name. -/
def dedupeByName : List (String × Nat) → List String → List (String × Nat)
  | [], _ => []
  | (nm, p) :: rest, seen =>
    if seen.contains nm then dedupeByName rest seen
    else (nm, p) :: dedupeByName rest (nm :: seen)

/-- The `ConceptDefinition` record of preprocessor.ts (`content` and `section`
are always set by both extractors, so they are modelled as plain fields;
`character` is an `Int` because `String.prototype.indexOf` can return -1). -/
structure ConceptDefinition where
  concept : String
  filePath : String
  line : Nat
  character : Int
  content : String
  sect : String
deriving DecidableEq, Repr

/-- Loop body of `ConceptExtractor.extractConceptsFromSpecText`: walks the
lines carrying the current section, and `prevSpecText`, the text accumulated
from indented lines.  A header line only updates the section; an indented line
appends itself plus a newline to `prevSpecText`; any other line sets
`currentLineIndex` to its own index, scans `prevSpecText` (de-duplicated by
name) and resets `prevSpecText` to empty.  The loop ends without flushing. -/
def extractUsagesGo (filePath : String) :
    List (List Char) → Nat → String → List Char → List ConceptDefinition
  | [], _, _, _ => []
  | line :: rest, i, curSect, prevText =>
    let trimmed := trimChars line
    if isHeaderLine trimmed then
      extractUsagesGo filePath rest (i + 1) (sectionNameOf trimmed) prevText
    else if hasIndentation line then
      extractUsagesGo filePath rest (i + 1) curSect (prevText ++ line ++ ['\n'])
    else
      ((dedupeByName (scanConceptTokens prevText 0 none) []).map
        (fun p => ⟨p.1, filePath, i, (p.2 : Int), String.mk prevText, curSect⟩))
      ++ extractUsagesGo filePath rest (i + 1) curSect []

/-- `ConceptExtractor.extractConceptsFromSpecText` (the usage extractor). -/
def extractConceptsFromSpecText (filePath content : String) : List ConceptDefinition :=
  extractUsagesGo filePath (splitOnNewline content.data) 0 "" []

/-- One colon-delimited token `":" [^:]+ ":"`: returns the consumed characters
(colons included) and the rest of the input, or `none` if the input does not
start with such a token. -/
def parseTok : List Char → Option (List Char × List Char)
  | ':' :: rest =>
    let inner := rest.takeWhile (fun c => c ≠ ':')
    match rest.drop inner.length with
    | ':' :: rest2 => if inner.isEmpty then none else some (':' :: (inner ++ [':']), rest2)
    | _ => none
  | _ => none

/-- The greedy repetition `(?:,\s*:[^\:]+:)*`: consumes as many
comma-whitespace-token groups as possible and returns the consumed characters.
`fuel` bounds the recursion; each group consumes at least four characters, so
fuel equal to the input length is always sufficient. -/
def parseReps : Nat → List Char → List Char
  | 0, _ => []
  | fuel + 1, cs =>
    match cs with
    | ',' :: rest =>
      let ws := rest.takeWhile Char.isWhitespace
      match parseTok (rest.drop ws.length) with
      | some (tok, rest2) => (',' :: (ws ++ tok)) ++ parseReps fuel rest2
      | none => []
    | _ => []

/-- `trimmedLine.match(/^-\s(:[^\:]+:)(?:,\s*:[^\:]+:)*/)`: if the trimmed line
is a definition list item, the matched prefix (`definitionMatch[0]`). -/
def parseDefLine (cs : List Char) : Option (List Char) :=
  match cs with
  | '-' :: w :: rest =>
    if w.isWhitespace then
      match parseTok rest with
      | some (tok, rest2) => some ('-' :: w :: (tok ++ parseReps rest2.length rest2))
      | none => none
    else none
  | _ => none

/-- Global scan of `/:([^\:]+):/g` over the matched prefix
(`fullMatch.match(...)`): every candidate token string, colons included, in
match order.  Same automaton as `scanConceptTokens` but the inner characters
are anything except a colon and the indices are not needed. -/
def scanColonCandidates : List Char → Option (List Char) → List String
  | [], _ => []
  | c :: rest, none =>
    if c = ':' then scanColonCandidates rest (some [])
    else scanColonCandidates rest none
  | c :: rest, some innerRev =>
    if c = ':' then
      if innerRev.isEmpty then scanColonCandidates rest (some [])
      else String.mk (':' :: (innerRev.reverse ++ [':'])) :: scanColonCandidates rest none
    else scanColonCandidates rest (some (c :: innerRev))

/-- `validConceptRegex = /^:[+\-\.0-9A-Z_a-z]+:$/` applied to a candidate. -/
def isValidConceptToken (s : String) : Bool :=
  match s.data with
  | ':' :: rest =>
    match rest.getLast? with
    | some ':' => (!rest.dropLast.isEmpty) && rest.dropLast.all alphaChar
    | _ => false
  | _ => false

/-- JavaScript `candidate.slice(1, -1)`: drop the first and last character. -/
def jsSlice1m1 (s : String) : String :=
  String.mk (s.data.drop 1).dropLast

/-- Helper of `jsIndexOf`: the first position at or after `i` where `pat`
occurs in the remaining input. -/
def firstIdxAux (pat : List Char) : List Char → Nat → Option Nat
  | [], i => if pat.isPrefixOf ([] : List Char) then some i else none
  | c :: t, i => if pat.isPrefixOf (c :: t) then some i else firstIdxAux pat t (i + 1)

/-- JavaScript `s.indexOf(pat)`: index of the first occurrence, or -1. -/
def jsIndexOf (s pat : List Char) : Int :=
  match firstIdxAux pat s 0 with
  | some i => (i : Int)
  | none => -1

/-- Loop body of `ConceptExtractor.extractConceptsFromDefinitions`: walks the
lines carrying `inDefinitionsSection` and the current section name.  A header
line updates both; inside a definitions section a line matching the definition
pattern contributes one occurrence per valid candidate token, positioned at
the first occurrence of the candidate (colons included) in the raw line. -/
def extractDefsGo (filePath : String) :
    List (List Char) → Nat → Bool → String → List ConceptDefinition
  | [], _, _, _ => []
  | line :: rest, i, inDef, _curSect =>
    let trimmed := trimChars line
    if isHeaderLine trimmed then
      let newSect := sectionNameOf trimmed
      let inDef' := if newSect ≠ "definitions" && inDef then false
                    else newSect == "definitions"
      extractDefsGo filePath rest (i + 1) inDef' newSect
    else if !inDef then
      extractDefsGo filePath rest (i + 1) inDef _curSect
    else
      match parseDefLine trimmed with
      | none => extractDefsGo filePath rest (i + 1) inDef _curSect
      | some fullMatch =>
        ((scanColonCandidates fullMatch none).filter isValidConceptToken).map
          (fun cand =>
            ⟨jsSlice1m1 cand, filePath, i, jsIndexOf line cand.data,
             String.mk line, _curSect⟩)
        ++ extractDefsGo filePath rest (i + 1) inDef _curSect

/-- `ConceptExtractor.extractConceptsFromDefinitions`. -/
def extractConceptsFromDefinitions (filePath content : String) : List ConceptDefinition :=
  extractDefsGo filePath (splitOnNewline content.data) 0 false ""

/-- The `FileProcessingResult` record of preprocessor.ts. -/
structure FileProcessingResult where
  filePath : String
  definedConcepts : List ConceptDefinition
  usedConcepts : List ConceptDefinition
  error : Option String
deriving DecidableEq, Repr

/-- The file system as seen by `fs.readFileSync`: `none` models a read that
throws (unreadable or vanished file). -/
abbrev FileSystem : Type := String → Option String

/-- `ConceptExtractor.processFile`: reads the file and runs both extractors; a
read failure is caught and turned into a result with empty concept lists and
an error message. -/
def processFile (fsys : FileSystem) (filePath : String) : FileProcessingResult :=
  match fsys filePath with
  | some content =>
    ⟨filePath, extractConceptsFromDefinitions filePath content,
     extractConceptsFromSpecText filePath content, none⟩
  | none => ⟨filePath, [], [], some ("Error processing file " ++ filePath)⟩

/-- A `ConceptIndex` (`{ [conceptName: string]: ConceptDefinition[] }`):
an insertion-ordered association list from concept names to occurrence
lists.  Key iteration order never influences any modelled operation. -/
abbrev ConceptIndex : Type := List (String × List ConceptDefinition)

/-- Lookup of `index[name]` (`none` when the key is absent). -/
def assocLookup {α : Type} : List (String × List α) → String → Option (List α)
  | [], _ => none
  | (k', l) :: rest, k => if k' = k then some l else assocLookup rest k

/-- `if (!m[k]) m[k] = []; m[k].push(v)`: append `v` to the key's list,
creating the key at the end when absent. -/
def pushAssoc {α : Type} : List (String × List α) → String → α → List (String × List α)
  | [], k, v => [(k, [v])]
  | (k', l) :: rest, k, v =>
    if k' = k then (k', l ++ [v]) :: rest
    else (k', l) :: pushAssoc rest k v

/-- Fold one result's occurrence list into an index. -/
def insertAll (occs : List ConceptDefinition) (idx : ConceptIndex) : ConceptIndex :=
  occs.foldl (fun ix c => pushAssoc ix c.concept c) idx

/-- The mutable fields of `PreprocessingService`. -/
structure ServiceState where
  definedConceptIndex : ConceptIndex
  usedConceptIndex : ConceptIndex
  isIndexing : Bool
deriving DecidableEq, Repr

/-- `PreprocessingService.buildConceptIndex`: fold every result into both
mappings, skipping results that carry an error marker. -/
def buildConceptIndex (results : List FileProcessingResult) (st : ServiceState) : ServiceState :=
  results.foldl
    (fun s r =>
      if r.error.isSome then s
      else
        { s with
          definedConceptIndex := insertAll r.definedConcepts s.definedConceptIndex,
          usedConceptIndex := insertAll r.usedConcepts s.usedConceptIndex })
    st

/-- `PreprocessingService.rebuildIndex`.  The workspace scan is passed in as
an `Except` value: `.error` models `scanWorkspace` throwing (the `catch`
branch), `.ok` the list of discovered files.  Mirrors the source order: busy
check, set the busy flag, clear `definedConceptIndex` (and only it), early
return on an empty file list, process every file, fold the results in, and
clear the busy flag on every path (the `finally` block). -/
def rebuildIndex (fsys : FileSystem) (scanOutcome : Except Unit (List String))
    (st : ServiceState) : ServiceState :=
  if st.isIndexing then st
  else
    let st1 : ServiceState := { st with isIndexing := true, definedConceptIndex := [] }
    match scanOutcome with
    | .error _ => { st1 with isIndexing := false }
    | .ok plainFiles =>
      if plainFiles.isEmpty then { st1 with isIndexing := false }
      else
        { buildConceptIndex (plainFiles.map (processFile fsys)) st1 with isIndexing := false }

/-- One mapping's half of `PreprocessingService.removeConceptsFromFile`:
filter every key's list by file path, then delete keys whose list became
empty. -/
def removeFileFrom (filePath : String) (idx : ConceptIndex) : ConceptIndex :=
  (idx.map (fun e => (e.1, e.2.filter (fun c => c.filePath != filePath)))).filter
    (fun e => !e.2.isEmpty)

/-- `PreprocessingService.removeConceptsFromFile`: purge one document's
occurrences from both mappings. -/
def removeConceptsFromFile (filePath : String) (st : ServiceState) : ServiceState :=
  { st with
    definedConceptIndex := removeFileFrom filePath st.definedConceptIndex,
    usedConceptIndex := removeFileFrom filePath st.usedConceptIndex }

/-- `PreprocessingService.findConceptDefinition`: `index[name] || []`. -/
def findConceptDefinition (st : ServiceState) (name : String) : List ConceptDefinition :=
  (assocLookup st.definedConceptIndex name).getD []

/-- `PreprocessingService.findConceptUsage`: `index[name] || []`. -/
def findConceptUsage (st : ServiceState) (name : String) : List ConceptDefinition :=
  (assocLookup st.usedConceptIndex name).getD []

/-- `PreprocessingService.processFileUpdate`: no-op for non-`.plain` paths,
otherwise purge then reprocess the single file. -/
def processFileUpdate (fsys : FileSystem) (filePath : String) (st : ServiceState) : ServiceState :=
  if !(".plain".data.isSuffixOf filePath.data) then st
  else buildConceptIndex [processFile fsys filePath] (removeConceptsFromFile filePath st)

/-- One `vscode.TextEdit.replace` of the rename provider: replace
`[line, startChar)`–`[line, endChar)` with `newText`. -/
structure Replacement where
  line : Nat
  startChar : Int
  endChar : Int
  newText : String
deriving DecidableEq, Repr

/-- Outcome of `PlainRenameProvider.provideRenameEdits`: a thrown validation
error, `undefined`, or a `WorkspaceEdit` holding one batch of text edits per
file. -/
inductive RenameResult where
  | rejected : RenameResult
  | noEdit : RenameResult
  | edits : List (String × List Replacement) → RenameResult
deriving DecidableEq, Repr

/-- The new-name validation `/^[+\-\.0-9A-Z_a-z]+$/.test(newName)`. -/
def isValidConceptName (s : String) : Bool :=
  (!s.data.isEmpty) && s.data.all alphaChar

/-- The `fileGroups` map of the rename provider: group occurrences by file
path, first-appearance order, preserving occurrence order within a file. -/
def groupByFile (occs : List ConceptDefinition) : List (String × List ConceptDefinition) :=
  occs.foldl (fun acc o => pushAssoc acc o.filePath o) []

/-- `PlainRenameProvider.provideRenameEdits` given the old name under the
cursor, the requested new name, and the current index state: validate the new
name, look up the old name's usages, group them by file, and emit one
replacement per occurrence spanning `character + 1` to
`character + 1 + oldName.length` on the occurrence's line. -/
def provideRenameEdits (oldName newName : String) (st : ServiceState) : RenameResult :=
  if !isValidConceptName newName then .rejected
  else
    let usages := findConceptUsage st oldName
    if usages.isEmpty then .noEdit
    else
      .edits ((groupByFile usages).map (fun g =>
        (g.1, g.2.map (fun o =>
          ⟨o.line, o.character + 1, o.character + 1 + (oldName.length : Int), newName⟩))))

/-! Concrete documents and index states used by the closed theorems below. -/

/-- A usage occurrence of concept `a` recorded from `/f.plain`. -/
def occA : ConceptDefinition := ⟨"a", "/f.plain", 0, 0, ":a:", ""⟩

/-- A usage occurrence of concept `a` recorded from `/g.plain`. -/
def occB : ConceptDefinition := ⟨"a", "/g.plain", 3, 0, ":a: again", ""⟩

/-- A usage occurrence of concept `foo` at line 2, column 5 of `/x.plain`. -/
def occFoo : ConceptDefinition := ⟨"foo", "/x.plain", 2, 5, "uses :foo: here", ""⟩

/-- An idle service state whose usages index already holds an entry. -/
def staleState : ServiceState := ⟨[], [("a", [occA])], false⟩

/-- An idle service state with one usage of `foo`. -/
def fooState : ServiceState := ⟨[], [("foo", [occFoo])], false⟩

/-- A state with occurrences of `a` from two documents in the definitions
index and from one document in the usages index. -/
def twoFileState : ServiceState := ⟨[("a", [occA, occB])], [("a", [occA])], false⟩

/-- A state whose busy flag is set. -/
def busyState : ServiceState := ⟨[("x", [occA])], [], true⟩

/-- A definitions section whose single list item names `a` twice. -/
def dupTokenDoc : String := "***definitions***\n- :a:, :a:"

/-- The occurrence that `dupTokenDoc`'s definition extraction emits twice. -/
def occD : ConceptDefinition := ⟨"a", "/f.plain", 1, 2, "- :a:, :a:", "definitions"⟩

end Plain

namespace Plain

/-! ## Claim theorems -/

/-- C1: the claim states that `rebuildIndex` first discards all existing
entries of BOTH mappings.  The code only clears `definedConceptIndex`
(`this.definedConceptIndex = {}`); `usedConceptIndex` is never cleared, so a
stale usage occurrence survives a rebuild that did not re-extract it — both
over an empty workspace and over a workspace whose one document contains no
tokens. -/
theorem c1_rebuild_keeps_stale_usages :
    (rebuildIndex (fun _ => none) (Except.ok []) staleState).usedConceptIndex = [("a", [occA])]
    ∧ (rebuildIndex (fun p => if p = "/g.plain" then some "x" else none)
        (Except.ok ["/g.plain"]) staleState).usedConceptIndex = [("a", [occA])]
    ∧ (rebuildIndex (fun p => if p = "/g.plain" then some "x" else none)
        (Except.ok ["/g.plain"]) staleState).definedConceptIndex = [] := by
  refine ⟨rfl, rfl, rfl⟩

/-- C2: the claim states that for the document `":a:\n  :b:\nrest"` usage
extraction should emit occurrences of `a` and `b` anchored at line 0 (the
block's first line).  The code emits only `b`, anchored at line 2 — the
unindented anchor line is never added to the scanned text, and the scan of
the accumulated indented text happens at (and is anchored to) the next
unindented line. -/
theorem c2_usage_block_not_anchored_at_first_line :
    extractConceptsFromSpecText "/f.plain" ":a:\n  :b:\nrest" =
      [⟨"b", "/f.plain", 2, 2, "  :b:\n", ""⟩] := by
  rfl

/-- C3: the claim states that a definition list item `- :a:, :b:` also yields
usage occurrences for `a` and `b`.  The code yields no usage occurrences at
all for this document: the usage pass never scans the text of unindented
lines. -/
theorem c3_definition_line_yields_no_usages :
    extractConceptsFromSpecText "/f.plain" "***definitions***\n- :a:, :b:" = [] := by
  rfl

/-- C4: the claim states that a still-open trailing continuation block is
flushed at end of document.  The code's loop ends without flushing
`prevSpecText`, so the token `r` appearing only in the trailing indented line
produces no usage occurrence. -/
theorem c4_trailing_block_not_flushed :
    extractConceptsFromSpecText "/f.plain" "end\n  :r:" = [] := by
  rfl

/-- C6 counterexample: the claim states that `- :a:, :a:` inside a
definitions section yields exactly one definition occurrence of `a` from that
line.  The code emits two (no within-line de-duplication exists in
`extractConceptsFromDefinitions`), both recording the column of the line's
first `:a:`. -/
theorem c6_duplicate_token_not_deduped :
    extractConceptsFromDefinitions "/f.plain" dupTokenDoc = [occD, occD] := by
  rfl

/-- C6 amended: definition extraction de-duplicates neither within a single
list-item line nor across list items: `- :a:, :a:` yields two occurrences of
`a` from that line (both at the first token's column), and two separate list
items each containing `:a:` also yield two occurrences. -/
theorem c6_defs_never_dedupe :
    (extractConceptsFromDefinitions "/f.plain" dupTokenDoc).map
        (fun o => (o.concept, o.line, o.character)) = [("a", 1, 2), ("a", 1, 2)]
    ∧ (extractConceptsFromDefinitions "/f.plain" "***definitions***\n- :a:\n- :a:").map
        (fun o => (o.concept, o.line)) = [("a", 1), ("a", 2)] := by
  refine ⟨rfl, rfl⟩

/-- Entries surviving `removeFileFrom` are nonempty and free of the removed
document's occurrences. -/
theorem removeFileFrom_mem (fp : String) (idx : ConceptIndex) :
    ∀ e ∈ removeFileFrom fp idx, e.2 ≠ [] ∧ ∀ o ∈ e.2, o.filePath ≠ fp := by
  intro e he
  unfold removeFileFrom at he
  rw [List.mem_filter] at he
  obtain ⟨hmem, hne⟩ := he
  refine ⟨?_, ?_⟩
  · intro hnil
    rw [hnil] at hne
    simp at hne
  · rw [List.mem_map] at hmem
    obtain ⟨a, _, rfl⟩ := hmem
    intro o ho
    rw [List.mem_filter] at ho
    have := ho.2
    simpa using this

/-- C7: after `removeConceptsFromFile`, no key of either mapping is bound to
an empty list (the key is deleted instead), and no surviving occurrence
carries the removed document's path. -/
theorem c7_remove_leaves_no_empty_key (st : ServiceState) (fp : String) :
    (∀ e ∈ (removeConceptsFromFile fp st).definedConceptIndex,
        e.2 ≠ [] ∧ ∀ o ∈ e.2, o.filePath ≠ fp)
    ∧ (∀ e ∈ (removeConceptsFromFile fp st).usedConceptIndex,
        e.2 ≠ [] ∧ ∀ o ∈ e.2, o.filePath ≠ fp) := by
  exact ⟨removeFileFrom_mem fp st.definedConceptIndex,
         removeFileFrom_mem fp st.usedConceptIndex⟩

/-- C7 witness: in `twoFileState`, purging `/f.plain` leaves the definitions
entry `("a", [occB])`, to which the theorem applies; the usages entry for `a`
is deleted outright. -/
theorem c7_remove_witness :
    ("a", [occB]).2 ≠ [] ∧ ∀ o ∈ ("a", [occB]).2, o.filePath ≠ "/f.plain" :=
  (c7_remove_leaves_no_empty_key twoFileState "/f.plain").1 ("a", [occB]) (by decide)

/-- Prepending one result to `buildConceptIndex` folds it in unless it carries
an error marker. -/
theorem buildConceptIndex_cons (r : FileProcessingResult) (rest : List FileProcessingResult)
    (st : ServiceState) :
    buildConceptIndex (r :: rest) st =
      buildConceptIndex rest
        (if r.error.isSome then st
         else
           { st with
             definedConceptIndex := insertAll r.definedConcepts st.definedConceptIndex,
             usedConceptIndex := insertAll r.usedConcepts st.usedConceptIndex }) := by
  rfl

/-- Results carrying an error marker contribute nothing to the index. -/
theorem buildConceptIndex_filter_errors (results : List FileProcessingResult) :
    ∀ st : ServiceState,
      buildConceptIndex results st
        = buildConceptIndex (results.filter (fun r => r.error.isNone)) st := by
  induction results with
  | nil => intro st; rfl
  | cons r rest ih =>
    intro st
    cases hr : r.error with
    | some e =>
      have h1 : r.error.isSome = true := by rw [hr]; rfl
      have h2 : r.error.isNone = false := by rw [hr]; rfl
      rw [buildConceptIndex_cons, List.filter_cons, h2]
      simp only [h1, if_true, Bool.false_eq_true, if_false]
      exact ih st
    | none =>
      have h1 : r.error.isSome = false := by rw [hr]; rfl
      have h2 : r.error.isNone = true := by rw [hr]; rfl
      rw [buildConceptIndex_cons, List.filter_cons, h2]
      simp only [h1, Bool.false_eq_true, if_false, if_true]
      rw [buildConceptIndex_cons]
      simp only [h1, Bool.false_eq_true, if_false]
      exact ih _

/-- A processing result has no error marker exactly when the read succeeded. -/
theorem processFile_error_isNone (fsys : FileSystem) (p : String) :
    (processFile fsys p).error.isNone = (fsys p).isSome := by
  cases h : fsys p <;> simp [processFile, h]

/-- Filtering the error-free results equals processing only the readable
files. -/
theorem map_processFile_filter (fsys : FileSystem) (files : List String) :
    (files.map (processFile fsys)).filter (fun r => r.error.isNone)
      = (files.filter (fun p => (fsys p).isSome)).map (processFile fsys) := by
  induction files with
  | nil => rfl
  | cons p rest ih =>
    by_cases h : (fsys p).isSome = true
    · simp [List.filter_cons, processFile_error_isNone, h, ih]
    · simp [List.filter_cons, processFile_error_isNone, h, ih]

/-- C8: a failed read yields a result with no defined and no used concepts
and an error marker; errored results contribute nothing to either mapping;
and a rebuild over a nonempty file list folds in exactly the readable files —
later documents are still processed after an unreadable one. -/
theorem c8_read_failure_contained (fsys : FileSystem) (path : String) (st : ServiceState)
    (files : List String) :
    (fsys path = none →
      (processFile fsys path).definedConcepts = []
      ∧ (processFile fsys path).usedConcepts = []
      ∧ (processFile fsys path).error.isSome = true)
    ∧ (∀ results, buildConceptIndex results st
        = buildConceptIndex (results.filter (fun r => r.error.isNone)) st)
    ∧ (st.isIndexing = false → files ≠ [] →
        rebuildIndex fsys (Except.ok files) st =
          { buildConceptIndex
              ((files.filter (fun p => (fsys p).isSome)).map (processFile fsys))
              { st with isIndexing := true, definedConceptIndex := [] } with
            isIndexing := false }) := by
  refine ⟨?_, ?_, ?_⟩
  · intro h
    simp [processFile, h]
  · intro results
    exact buildConceptIndex_filter_errors results st
  · intro hb hne
    have hempty : files.isEmpty = false := by
      cases files with
      | nil => exact absurd rfl hne
      | cons a l => rfl
    simp only [rebuildIndex, hb, Bool.false_eq_true, if_false, hempty]
    rw [buildConceptIndex_filter_errors, map_processFile_filter]

/-- C8 witness: a workspace where every read fails, applied to the first
conjunct. -/
theorem c8_read_failure_witness :
    (processFile (fun _ => none) "/bad.plain").definedConcepts = []
    ∧ (processFile (fun _ => none) "/bad.plain").usedConcepts = []
    ∧ (processFile (fun _ => none) "/bad.plain").error.isSome = true :=
  (c8_read_failure_contained (fun _ => none) "/bad.plain" ⟨[], [], false⟩ []).1 rfl

/-- C9: a rebuild request arriving while the busy flag is set returns the
state unchanged (no index modification), and a rebuild started from an idle
state always ends with the busy flag cleared, for every scan outcome —
including a thrown workspace scan. -/
theorem c9_rebuild_busy_discipline (fsys : FileSystem)
    (scanOutcome : Except Unit (List String)) (st : ServiceState) :
    (st.isIndexing = true → rebuildIndex fsys scanOutcome st = st)
    ∧ (st.isIndexing = false → (rebuildIndex fsys scanOutcome st).isIndexing = false) := by
  constructor
  · intro h
    simp [rebuildIndex, h]
  · intro h
    cases scanOutcome with
    | error e => simp [rebuildIndex, h]
    | ok files =>
      by_cases hf : files.isEmpty = true
      · simp [rebuildIndex, h, hf]
      · simp [rebuildIndex, h, hf]

/-- C9 witness: a busy state is returned unchanged even when the scan would
throw. -/
theorem c9_rebuild_busy_witness :
    rebuildIndex (fun _ => none) (Except.error ()) busyState = busyState :=
  (c9_rebuild_busy_discipline (fun _ => none) (Except.error ()) busyState).1 rfl

/-- Pushing under a key appends to that key's list. -/
theorem assocLookup_pushAssoc_self {α : Type} (xs : List (String × List α)) (k : String)
    (v : α) :
    assocLookup (pushAssoc xs k v) k = some ((assocLookup xs k).getD [] ++ [v]) := by
  induction xs with
  | nil => simp [pushAssoc, assocLookup]
  | cons e rest ih =>
    obtain ⟨k', l⟩ := e
    by_cases h : k' = k
    · subst h
      simp [pushAssoc, assocLookup]
    · simp [pushAssoc, assocLookup, h, ih]

/-- Pushing under a key leaves other keys' lists unchanged. -/
theorem assocLookup_pushAssoc_ne {α : Type} (xs : List (String × List α)) (k : String)
    (v : α) (k' : String) (h : k' ≠ k) :
    assocLookup (pushAssoc xs k v) k' = assocLookup xs k' := by
  have h' : ¬ k = k' := fun hh => h hh.symm
  induction xs with
  | nil => simp [pushAssoc, assocLookup, h']
  | cons e rest ih =>
    obtain ⟨k'', l⟩ := e
    by_cases h2 : k'' = k
    · subst h2
      simp [pushAssoc, assocLookup, h']
    · simp [pushAssoc, assocLookup, h2, ih]

/-- The key list after a push: unchanged when the key exists, appended
otherwise. -/
theorem fst_pushAssoc {α : Type} (xs : List (String × List α)) (k : String) (v : α) :
    (pushAssoc xs k v).map Prod.fst
      = if k ∈ xs.map Prod.fst then xs.map Prod.fst else xs.map Prod.fst ++ [k] := by
  induction xs with
  | nil => simp [pushAssoc]
  | cons e rest ih =>
    obtain ⟨k', l⟩ := e
    by_cases h : k' = k
    · subst h
      simp [pushAssoc]
    · have hne : ¬ k = k' := fun hh => h hh.symm
      by_cases hm : k ∈ rest.map Prod.fst
      · simp [pushAssoc, h, ih, hm, hne]
      · simp [pushAssoc, h, ih, hm, hne]

/-- A push's own key is present afterwards. -/
theorem mem_fst_pushAssoc {α : Type} (xs : List (String × List α)) (k : String) (v : α) :
    k ∈ (pushAssoc xs k v).map Prod.fst := by
  rw [fst_pushAssoc]
  by_cases hm : k ∈ xs.map Prod.fst
  · simp [hm]
  · simp [hm]

/-- A push preserves the presence of every key. -/
theorem mem_fst_pushAssoc_mono {α : Type} (xs : List (String × List α)) (k : String)
    (v : α) (k' : String) (h : k' ∈ xs.map Prod.fst) :
    k' ∈ (pushAssoc xs k v).map Prod.fst := by
  rw [fst_pushAssoc]
  by_cases hm : k ∈ xs.map Prod.fst
  · simpa [hm] using h
  · simp [hm, h]

/-- A push preserves distinctness of the keys. -/
theorem nodup_fst_pushAssoc {α : Type} (xs : List (String × List α)) (k : String) (v : α)
    (h : (xs.map Prod.fst).Nodup) : ((pushAssoc xs k v).map Prod.fst).Nodup := by
  rw [fst_pushAssoc]
  by_cases hm : k ∈ xs.map Prod.fst
  · simpa [hm] using h
  · simp [hm, List.nodup_append, h]

/-- Grouping keeps the keys distinct. -/
theorem nodup_fst_groupFold (occs : List ConceptDefinition) :
    ∀ acc : List (String × List ConceptDefinition), ((acc.map Prod.fst).Nodup) →
      (((occs.foldl (fun a o => pushAssoc a o.filePath o) acc)).map Prod.fst).Nodup := by
  induction occs with
  | nil => intro acc h; simpa using h
  | cons o rest ih =>
    intro acc h
    exact ih _ (nodup_fst_pushAssoc acc o.filePath o h)

/-- Grouping preserves the presence of every accumulator key. -/
theorem mem_fst_groupFold_mono (occs : List ConceptDefinition) :
    ∀ (acc : List (String × List ConceptDefinition)) (k : String), k ∈ acc.map Prod.fst →
      k ∈ ((occs.foldl (fun a o => pushAssoc a o.filePath o) acc)).map Prod.fst := by
  induction occs with
  | nil => intro acc k h; simpa using h
  | cons o rest ih =>
    intro acc k h
    exact ih _ k (mem_fst_pushAssoc_mono acc o.filePath o k h)

/-- Every grouped occurrence's file path appears among the keys. -/
theorem mem_fst_groupFold (occs : List ConceptDefinition) :
    ∀ (acc : List (String × List ConceptDefinition)) (o : ConceptDefinition), o ∈ occs →
      o.filePath ∈ ((occs.foldl (fun a o => pushAssoc a o.filePath o) acc)).map Prod.fst := by
  induction occs with
  | nil => intro acc o h; simp at h
  | cons x rest ih =>
    intro acc o h
    rcases List.mem_cons.1 h with heq | hmem
    · subst heq
      exact mem_fst_groupFold_mono rest _ o.filePath (mem_fst_pushAssoc acc o.filePath o)
    · exact ih _ o hmem

/-- Each key's grouped list collects, in order, the occurrences with that file
path, appended to whatever the accumulator already held. -/
theorem groupFold_lookup (occs : List ConceptDefinition) :
    ∀ (acc : List (String × List ConceptDefinition)) (k : String),
      (assocLookup (occs.foldl (fun a o => pushAssoc a o.filePath o) acc) k).getD []
        = (assocLookup acc k).getD [] ++ occs.filter (fun o => o.filePath == k) := by
  induction occs with
  | nil => intro acc k; simp
  | cons o rest ih =>
    intro acc k
    rw [List.foldl_cons, ih, List.filter_cons]
    by_cases h : o.filePath = k
    · subst h
      simp [assocLookup_pushAssoc_self, List.append_assoc]
    · have hbeq : (o.filePath == k) = false := by simp [h]
      rw [assocLookup_pushAssoc_ne acc o.filePath o k (fun hh => h hh.symm)]
      simp [hbeq]

/-- With distinct keys, association-list membership determines the lookup. -/
theorem assocLookup_eq_of_mem_nodup {α : Type} :
    ∀ xs : List (String × List α), (xs.map Prod.fst).Nodup →
      ∀ (k : String) (l : List α), (k, l) ∈ xs → assocLookup xs k = some l := by
  intro xs
  induction xs with
  | nil => intro _ k l h; simp at h
  | cons e rest ih =>
    intro hnd k l hm
    obtain ⟨k', l'⟩ := e
    rcases List.mem_cons.1 hm with heq | hmem
    · have h1 : k = k' := congrArg Prod.fst heq
      have h2 : l = l' := congrArg Prod.snd heq
      subst h1
      subst h2
      simp [assocLookup]
    · have hnd' : (k' :: rest.map Prod.fst).Nodup := by simpa using hnd
      have hk : ¬ k' = k := by
        intro hkk
        subst hkk
        exact (List.nodup_cons.1 hnd').1
          (List.mem_map_of_mem Prod.fst hmem)
      simp only [assocLookup, hk, if_false]
      exact ih (List.nodup_cons.1 hnd').2 k l hmem

/-- A pair found in `groupByFile occs` carries exactly the occurrences of its
file, in input order. -/
theorem groupByFile_eq_filter (occs : List ConceptDefinition) (fp : String)
    (l : List ConceptDefinition) (h : (fp, l) ∈ groupByFile occs) :
    l = occs.filter (fun o => o.filePath == fp) := by
  have hnd := nodup_fst_groupFold occs [] (by simp)
  have hlk := assocLookup_eq_of_mem_nodup _ hnd fp l h
  have h2 := groupFold_lookup occs [] fp
  rw [hlk] at h2
  simpa [assocLookup] using h2

/-- C5 counterexample: the claim's rejection condition is "the new name
contains a character outside the alphabet".  The empty new name contains no
such character and the old name has a usage occurrence, so the claim requires
a replacement to be emitted — but the validation regex
`/^[+\-\.0-9A-Z_a-z]+$/` also rejects the empty string, so the operation is
rejected instead. -/
theorem c5_empty_new_name_rejected :
    "".data.all alphaChar = true
    ∧ findConceptUsage fooState "foo" ≠ []
    ∧ provideRenameEdits "foo" "" fooState = RenameResult.rejected := by
  refine ⟨rfl, by decide, rfl⟩

/-- C5 amended: a rename is rejected before any replacement is computed when
the new name is empty OR contains a character outside `[A-Za-z0-9_.+-]`; for
a nonempty all-alphabet new name with at least one usage of the old name, a
plan IS produced: it has distinct file batches, every usage occurrence's
document gets a batch, and each batch holds exactly one replacement per usage
occurrence of the old name in that document, on the occurrence's line, from
`column + 1` to `column + 1 + length(oldName)`, substituting the new name. -/
theorem c5_rename_plan (oldName newName : String) (st : ServiceState) :
    ((newName.data = [] ∨ ∃ c ∈ newName.data, alphaChar c = false) →
      provideRenameEdits oldName newName st = RenameResult.rejected)
    ∧ (newName.data ≠ [] → (∀ c ∈ newName.data, alphaChar c = true) →
        findConceptUsage st oldName ≠ [] →
        ∃ batches, provideRenameEdits oldName newName st = RenameResult.edits batches
          ∧ (batches.map Prod.fst).Nodup
          ∧ (∀ o ∈ findConceptUsage st oldName, o.filePath ∈ batches.map Prod.fst)
          ∧ ∀ fp reps, (fp, reps) ∈ batches →
              reps = ((findConceptUsage st oldName).filter (fun o => o.filePath == fp)).map
                (fun o => ⟨o.line, o.character + 1,
                           o.character + 1 + (oldName.length : Int), newName⟩)) := by
  constructor
  · intro h
    have hv : isValidConceptName newName = false := by
      rcases h with he | ⟨c, hc, hca⟩
      · simp [isValidConceptName, he]
      · simp only [isValidConceptName, Bool.and_eq_false_iff]
        right
        rw [List.all_eq_false]
        exact ⟨c, hc, by simp [hca]⟩
    simp [provideRenameEdits, hv]
  · intro hne hall hnonempty
    have hv : isValidConceptName newName = true := by
      simp only [isValidConceptName, Bool.and_eq_true, Bool.not_eq_true']
      refine ⟨by simpa using hne, ?_⟩
      rw [List.all_eq_true]
      intro c hc
      simp [hall c hc]
    have hu : (findConceptUsage st oldName).isEmpty = false := by
      cases hcase : findConceptUsage st oldName with
      | nil => exact absurd hcase hnonempty
      | cons a l => rfl
    refine ⟨(groupByFile (findConceptUsage st oldName)).map (fun g =>
        (g.1, g.2.map (fun o =>
          (⟨o.line, o.character + 1,
            o.character + 1 + (oldName.length : Int), newName⟩ : Replacement)))),
      ?_, ?_, ?_, ?_⟩
    · rw [provideRenameEdits]
      simp only [hv, Bool.not_true, Bool.false_eq_true, if_false, hu]
    · have hfst : ((groupByFile (findConceptUsage st oldName)).map (fun g =>
            (g.1, g.2.map (fun o =>
              (⟨o.line, o.character + 1,
                o.character + 1 + (oldName.length : Int), newName⟩ : Replacement))))).map Prod.fst
          = (groupByFile (findConceptUsage st oldName)).map Prod.fst := by
        rw [List.map_map]
        rfl
      rw [hfst]
      exact nodup_fst_groupFold (findConceptUsage st oldName) [] (by simp)
    · have hfst : ((groupByFile (findConceptUsage st oldName)).map (fun g =>
            (g.1, g.2.map (fun o =>
              (⟨o.line, o.character + 1,
                o.character + 1 + (oldName.length : Int), newName⟩ : Replacement))))).map Prod.fst
          = (groupByFile (findConceptUsage st oldName)).map Prod.fst := by
        rw [List.map_map]
        rfl
      intro o ho
      rw [hfst]
      exact mem_fst_groupFold (findConceptUsage st oldName) [] o ho
    · intro fp reps hm
      rw [List.mem_map] at hm
      obtain ⟨g, hg, hgeq⟩ := hm
      have hfp : g.1 = fp := congrArg Prod.fst hgeq
      have hreps : reps = g.2.map (fun o =>
          (⟨o.line, o.character + 1,
            o.character + 1 + (oldName.length : Int), newName⟩ : Replacement)) :=
        (congrArg Prod.snd hgeq).symm
      have hflt : g.2 = (findConceptUsage st oldName).filter (fun o => o.filePath == fp) := by
        rw [← hfp]
        exact groupByFile_eq_filter (findConceptUsage st oldName) g.1 g.2 (by
          rw [← Prod.mk.eta (p := g)] at hg
          exact hg)
      rw [hreps, hflt]

/-- C5 witness: the amended emission branch at the concrete valid new name
`bar` and an index holding one usage of `foo` at line 2, column 5 of
`/x.plain` — a plan with one batch for `/x.plain` is produced. -/
theorem c5_rename_plan_witness :
    ∃ batches, provideRenameEdits "foo" "bar" fooState = RenameResult.edits batches
      ∧ (batches.map Prod.fst).Nodup
      ∧ (∀ o ∈ findConceptUsage fooState "foo", o.filePath ∈ batches.map Prod.fst)
      ∧ ∀ fp reps, (fp, reps) ∈ batches →
          reps = ((findConceptUsage fooState "foo").filter (fun o => o.filePath == fp)).map
            (fun o => ⟨o.line, o.character + 1,
                       o.character + 1 + (("foo" : String).length : Int), "bar"⟩) :=
  (c5_rename_plan "foo" "bar" fooState).2 (by decide) (by decide) (by decide)

/-- Dropping the last element of a list extended by one element. -/
theorem dropLast_append_single {α : Type} (l : List α) (a : α) : (l ++ [a]).dropLast = l := by
  simp

/-- Every candidate produced by the colon-token scan is a colon, a (nonempty)
inner text, and a colon. -/
theorem scanColonCandidates_shape (cs : List Char) :
    ∀ (st : Option (List Char)) (cand : String), cand ∈ scanColonCandidates cs st →
      ∃ inner : List Char, cand.data = ':' :: (inner ++ [':']) := by
  induction cs with
  | nil =>
    intro st cand h
    cases st <;> simp [scanColonCandidates] at h
  | cons c rest ih =>
    intro st cand h
    cases st with
    | none =>
      simp only [scanColonCandidates] at h
      by_cases hc : c = ':'
      · rw [if_pos hc] at h
        exact ih _ cand h
      · rw [if_neg hc] at h
        exact ih _ cand h
    | some innerRev =>
      simp only [scanColonCandidates] at h
      by_cases hc : c = ':'
      · rw [if_pos hc] at h
        by_cases he : innerRev.isEmpty = true
        · rw [if_pos he] at h
          exact ih _ cand h
        · rw [if_neg he] at h
          rcases List.mem_cons.1 h with heq | hmem
          · exact ⟨innerRev.reverse, by rw [heq]⟩
          · exact ih _ cand hmem
      · rw [if_neg hc] at h
        exact ih _ cand h

/-- Every occurrence emitted by the definitions loop comes from some line of
the walked list: its `line` is that line's index, its `content` is that raw
line, and its `character` is the raw line's first index of the occurrence's
concept name wrapped in colons. -/
theorem extractDefsGo_shape (fp : String) (lines : List (List Char)) :
    ∀ (i : Nat) (inDef : Bool) (sect : String) (o : ConceptDefinition),
      o ∈ extractDefsGo fp lines i inDef sect →
      ∃ j line, lines.get? j = some line ∧ o.line = i + j ∧ o.content = String.mk line
        ∧ o.character = jsIndexOf line (':' :: (o.concept.data ++ [':'])) := by
  induction lines with
  | nil =>
    intro i inDef sect o h
    simp [extractDefsGo] at h
  | cons line rest ih =>
    intro i inDef sect o h
    simp only [extractDefsGo] at h
    split at h
    · obtain ⟨j, l, hget, hline, hcont, hchar⟩ := ih _ _ _ o h
      exact ⟨j + 1, l, by simpa using hget, by omega, hcont, hchar⟩
    · split at h
      · obtain ⟨j, l, hget, hline, hcont, hchar⟩ := ih _ _ _ o h
        exact ⟨j + 1, l, by simpa using hget, by omega, hcont, hchar⟩
      · split at h
        · obtain ⟨j, l, hget, hline, hcont, hchar⟩ := ih _ _ _ o h
          exact ⟨j + 1, l, by simpa using hget, by omega, hcont, hchar⟩
        · rename_i fullMatch hfm
          rcases List.mem_append.1 h with hmem | hrec
          · rw [List.mem_map] at hmem
            obtain ⟨cand, hcand, hoeq⟩ := hmem
            have hcand2 : cand ∈ scanColonCandidates fullMatch none :=
              (List.mem_filter.1 hcand).1
            obtain ⟨inner, hinner⟩ := scanColonCandidates_shape fullMatch none cand hcand2
            have hsl : (jsSlice1m1 cand).data = inner := by
              simp [jsSlice1m1, hinner]
            refine ⟨0, line, rfl, ?_, ?_, ?_⟩
            · rw [← hoeq]
              simp
            · rw [← hoeq]
            · rw [← hoeq]
              show jsIndexOf line cand.data
                = jsIndexOf line (':' :: ((jsSlice1m1 cand).data ++ [':']))
              rw [hsl, hinner]
          · obtain ⟨j, l, hget, hline, hcont, hchar⟩ := ih _ _ _ o hrec
            exact ⟨j + 1, l, by simpa using hget, by omega, hcont, hchar⟩

/-- C10: in definition extraction each occurrence's recorded column is the
raw line's FIRST index of the occurrence's colon-wrapped token text, so two
occurrences of the same concept on the same line always record the same
column — repetitions of a token on one definitions line all point at its
first position. -/
theorem c10_def_column_is_first_occurrence (filePath content : String)
    (o o' : ConceptDefinition)
    (ho : o ∈ extractConceptsFromDefinitions filePath content)
    (ho' : o' ∈ extractConceptsFromDefinitions filePath content) :
    o.character = jsIndexOf o.content.data (':' :: (o.concept.data ++ [':']))
    ∧ (o.concept = o'.concept → o.line = o'.line → o.character = o'.character) := by
  obtain ⟨j, line, hget, hline, hcont, hchar⟩ :=
    extractDefsGo_shape filePath (splitOnNewline content.data) 0 false "" o ho
  obtain ⟨j', line', hget', hline', hcont', hchar'⟩ :=
    extractDefsGo_shape filePath (splitOnNewline content.data) 0 false "" o' ho'
  constructor
  · rw [hcont]
    exact hchar
  · intro hcn hln
    have hj : j = j' := by omega
    subst hj
    rw [hget] at hget'
    have hll : line = line' := Option.some.inj hget'
    rw [hchar, hchar', hcn, hll]

/-- C10 witness: the duplicated-token document, where both emitted
occurrences of `a` record column 2, the first index of `:a:` in the raw
line. -/
theorem c10_first_occurrence_witness :
    occD.character = jsIndexOf occD.content.data (':' :: (occD.concept.data ++ [':']))
    ∧ (occD.concept = occD.concept → occD.line = occD.line →
        occD.character = occD.character) :=
  c10_def_column_is_first_occurrence "/f.plain" dupTokenDoc occD occD (by decide) (by decide)

end Plain
